import Mathlib

/-!
Verification of the `mattools` matrix package (`src/matrix/matrix.go`).

We shallowly embed the data model and operations of the package:
machine `float64` values are modelled by the inductive `F64` (a rational
number or the NaN sentinel), Go maps `map[int]float64` by association
lists, and the fallible paths (`panic`, `error` returns) by
`Except`/`Option`.  Functions whose bodies live in this repository but
outside `src/matrix/matrix.go` (the n-dimensional array layer:
`flatToNd`, `Item`, `ItemSet`, `Array`, `WithValue`) are modelled from
the specification and marked `Modelled from the spec:` in their doc
comments.  The external `mat64` backend is modelled through the
interface the bridge uses (dense construction from a row-major buffer,
dimension query, element read), with its solver and inverter passed in
as explicit parameters.
-/

set_option autoImplicit false

namespace Mattools

/-- Model of Go `float64`: either an exact rational value or the NaN
sentinel.  No claim in scope requires rounding arithmetic, so rational
values model the float lattice faithfully for equality and order. -/
inductive F64 where
  | nan : F64
  | num (q : ℚ) : F64
  deriving DecidableEq, Repr

instance : Inhabited F64 := ⟨F64.num 0⟩

/-- The zero float, `0.0`. -/
def F64.zero : F64 := F64.num 0

/-- Product of the extents of a shape. -/
def listProd : List ℕ → ℕ
  | [] => 1
  | d :: ds => d * listProd ds

/-- Helper for `flatToNd`, working on the REVERSED shape and producing
the REVERSED coordinate: the last (fastest-varying) dimension is
peeled off first with mod/div, as the spec describes. -/
def flatToNdAux : List ℕ → ℕ → List ℕ
  | [], _ => []
  | d :: ds, i => (i % d) :: flatToNdAux ds (i / d)

/-- Modelled from the spec: `flatToNd(shape, flatIndex)` (defined in the
repository's ndarray layer, outside `src/matrix/matrix.go`).  Row-major
decomposition: the coordinate's last component is `flatIndex mod
shape[last]`, successive components divide by successive trailing
extents. -/
def flatToNd (shape : List ℕ) (i : ℕ) : List ℕ :=
  (flatToNdAux shape.reverse i).reverse

/-- Helper for `ndToFlat`, working on REVERSED shape and coordinate. -/
def ndToFlatAux : List ℕ → List ℕ → ℕ
  | d :: ds, c :: cs => c + d * ndToFlatAux ds cs
  | _, _ => 0

/-- Modelled from the spec: the coordinate→flat mapping inverse to
`flatToNd` under row-major order (the last dimension varies fastest). -/
def ndToFlat (shape coord : List ℕ) : ℕ :=
  ndToFlatAux shape.reverse coord.reverse

/-- Modelled from the spec: `flatToNd` has the precondition
`0 ≤ flatIndex < product(shape)`; violating it is a fatal error.  The
checked variant returns `Except` so callers can thread the panic. -/
def flatToNdChecked (shape : List ℕ) (i : ℕ) : Except String (List ℕ) :=
  if i < listProd shape then .ok (flatToNd shape i) else .error "flat index out of range"

theorem listProd_pos_head {d : ℕ} {ds : List ℕ} (h : 0 < listProd (d :: ds)) : 0 < d := by
  by_contra hd
  have : d = 0 := by omega
  simp [listProd, this] at h

theorem ndToFlatAux_flatToNdAux (ds : List ℕ) (i : ℕ) (h : i < listProd ds) :
    ndToFlatAux ds (flatToNdAux ds i) = i := by
  induction ds generalizing i with
  | nil =>
    simp only [listProd] at h
    interval_cases i
    rfl
  | cons d ds ih =>
    have hd : 0 < d := listProd_pos_head (show 0 < listProd (d :: ds) by omega)
    have hdiv : i / d < listProd ds := by
      have : i < listProd ds * d := by
        simpa [listProd, Nat.mul_comm] using h
      exact Nat.div_lt_of_lt_mul (by simpa [Nat.mul_comm] using this)
    simp only [flatToNdAux, ndToFlatAux, ih _ hdiv]
    exact Nat.mod_add_div i d

theorem listProd_reverse (l : List ℕ) : listProd l.reverse = listProd l := by
  have h : ∀ m : List ℕ, listProd m = m.prod := by
    intro m; induction m with
    | nil => rfl
    | cons d ds ih => simp [listProd, ih]
  simp [h, List.prod_reverse]

/-- Round trip at the level of `flatToNd`/`ndToFlat`. -/
theorem ndToFlat_flatToNd (shape : List ℕ) (i : ℕ) (h : i < listProd shape) :
    ndToFlat shape (flatToNd shape i) = i := by
  unfold ndToFlat flatToNd
  rw [List.reverse_reverse]
  exact ndToFlatAux_flatToNdAux shape.reverse i (by rwa [listProd_reverse])

/-- A Go `map[int]float64` modelled as an association list of
(column, value) pairs; later `ItemSet`s prepend after filtering out the
old binding, so keys stay unique. -/
abbrev AssocRow : Type := List (ℕ × F64)

/-- Map read `row[j]`: `some v` when a binding is stored, `none` when
the key is absent. -/
def alGet (r : AssocRow) (j : ℕ) : Option F64 :=
  (r.find? (fun p => p.1 == j)).map Prod.snd

/-- Map write `row[j] = v`: overwrites any prior binding for `j`. -/
def alSet (r : AssocRow) (j : ℕ) (v : F64) : AssocRow :=
  (j, v) :: r.filter (fun p => p.1 != j)

/-- The dense representation `denseF64Array` (its struct is declared in
the repository's ndarray layer): shape `[rows, cols]` and one row-major
buffer of length rows×cols. -/
structure denseF64Array where
  rows : ℕ
  cols : ℕ
  array : List F64
  deriving DecidableEq, Repr

/-- The sparse coordinate representation `sparseCooF64Matrix`: shape
`[rows, cols]` and one value-map per row, keyed by column. -/
structure sparseCooF64Matrix where
  rows : ℕ
  cols : ℕ
  values : List AssocRow
  deriving DecidableEq, Repr

/-- The sparse diagonal representation `sparseDiagF64Matrix`: shape
`[rows, cols]` and a buffer holding the min(rows, cols) main-diagonal
values. -/
structure sparseDiagF64Matrix where
  rows : ℕ
  cols : ℕ
  diag : List F64
  deriving DecidableEq, Repr

/-- Modelled from the spec: dense `Item(i0, i1)` reads the buffer at
flat index `i0*cols + i1`. -/
def denseF64Array.item (m : denseF64Array) (i j : ℕ) : F64 :=
  m.array.getD (i * m.cols + j) F64.zero

/-- Modelled from the spec: dense `ItemSet(v, i0, i1)` writes the
buffer at flat index `i0*cols + i1`. -/
def denseF64Array.itemSet (m : denseF64Array) (v : F64) (i j : ℕ) : denseF64Array :=
  { m with array := m.array.set (i * m.cols + j) v }

/-- The stored binding (if any) of the sparse coordinate matrix at cell
(i, j): `some v` means an entry is materialized. -/
def sparseCooF64Matrix.stored (m : sparseCooF64Matrix) (i j : ℕ) : Option F64 :=
  alGet (m.values.getD i default) j

/-- Modelled from the spec: sparse-coo `Item(i, j)` reads the row map;
an absent key reads as 0. -/
def sparseCooF64Matrix.item (m : sparseCooF64Matrix) (i j : ℕ) : F64 :=
  (m.stored i j).getD F64.zero

/-- Modelled from the spec: sparse-coo `ItemSet(v, i, j)` stores `v` at
(i, j), overwriting any prior entry for that coordinate.  (The spec
leaves zero-value writes open; we model the Go map assignment, which
stores the given value even when it is zero.) -/
def sparseCooF64Matrix.itemSet (m : sparseCooF64Matrix) (v : F64) (i j : ℕ) :
    sparseCooF64Matrix :=
  { m with values := m.values.set i (alSet (m.values.getD i default) j v) }

/-- `ItemSet` applied to a coordinate given as a list (the variadic
call `ItemSet(val, flatToNd(shape, idx)...)`); a rank-2 matrix always
receives a 2-element coordinate. -/
def sparseCooF64Matrix.itemSetAt (m : sparseCooF64Matrix) (v : F64) (coord : List ℕ) :
    sparseCooF64Matrix :=
  match coord with
  | [i, j] => m.itemSet v i j
  | _ => m

/-- `Item` applied to a coordinate given as a list. -/
def sparseCooF64Matrix.itemAt (m : sparseCooF64Matrix) (coord : List ℕ) : F64 :=
  match coord with
  | [i, j] => m.item i j
  | _ => F64.zero

/-- Modelled from the spec: sparse-diag `Item(i, j)` reads the diagonal
buffer when `i = j` and 0 elsewhere (off-diagonal cells are
structurally zero). -/
def sparseDiagF64Matrix.item (m : sparseDiagF64Matrix) (i j : ℕ) : F64 :=
  if i = j then m.diag.getD i F64.zero else F64.zero

/-- The capability view: any of the three storage kinds. -/
inductive Matrix where
  | dense (d : denseF64Array) : Matrix
  | coo (c : sparseCooF64Matrix) : Matrix
  | diag (g : sparseDiagF64Matrix) : Matrix
  deriving DecidableEq

/-- `Rows()`. -/
def Matrix.RowsOf : Matrix → ℕ
  | .dense d => d.rows
  | .coo c => c.rows
  | .diag g => g.rows

/-- `Cols()`. -/
def Matrix.ColsOf : Matrix → ℕ
  | .dense d => d.cols
  | .coo c => c.cols
  | .diag g => g.cols

/-- `Item(i, j)` through the capability interface. -/
def Matrix.item : Matrix → ℕ → ℕ → F64
  | .dense d => d.item
  | .coo c => c.item
  | .diag g => g.item

/-- `Shape()`: the list `[rows, cols]`. -/
def Matrix.ShapeOf (m : Matrix) : List ℕ := [m.RowsOf, m.ColsOf]

/-- Modelled from the spec: `Array()` materializes a fully dense,
row-major copy of any representation. -/
def Matrix.toFlatArray (m : Matrix) : List F64 :=
  (List.range (m.RowsOf * m.ColsOf)).map (fun k => m.item (k / m.ColsOf) (k % m.ColsOf))

/-- `SparseCoo(rows, cols)` before literal initialization: one empty
value-map per row. -/
def cooEmpty (rows cols : ℕ) : sparseCooF64Matrix :=
  ⟨rows, cols, List.replicate rows ([] : AssocRow)⟩

/-- The initialization loop of `SparseCoo`: for each literal index/value
pair with nonzero value, `ItemSet` at `flatToNd(shape, idx)`.  A
nonzero value at a flat index outside the matrix hits `flatToNd`'s
fatal precondition, threaded as `Except.error`. -/
def sparseCooInit (m : sparseCooF64Matrix) (idx : ℕ) :
    List F64 → Except String sparseCooF64Matrix
  | [] => .ok m
  | v :: rest =>
    if v = F64.zero then sparseCooInit m (idx + 1) rest
    else
      match flatToNdChecked [m.rows, m.cols] idx with
      | .error e => .error e
      | .ok coord => sparseCooInit (m.itemSetAt v coord) (idx + 1) rest

/-- `SparseCoo(rows, cols, array...)`: coordinate-format construction
from a row-major literal sequence. -/
def SparseCoo (rows cols : ℕ) (array : List F64) : Except String sparseCooF64Matrix :=
  sparseCooInit (cooEmpty rows cols) 0 array

/-- The initialization loop of `SparseDiag`:
`for pos, v := range diag { array.diag[pos] = v }`. -/
def setDiagVals (buf : List F64) (pos : ℕ) : List F64 → List F64
  | [] => buf
  | v :: rest => setDiagVals (buf.set pos v) (pos + 1) rest

/-- `SparseDiag(rows, cols, diag...)`: diagonal-format construction.
Panics (modelled as `Except.error`) when more diagonal values are
supplied than fit; otherwise allocates a min(rows, cols) buffer and
copies the supplied values in. -/
def SparseDiag (rows cols : ℕ) (diag : List F64) : Except String sparseDiagF64Matrix :=
  if diag.length > rows ∨ diag.length > cols then
    .error "too many diag elements"
  else
    let size := if cols < rows then cols else rows
    .ok ⟨rows, cols, setDiagVals (List.replicate size F64.zero) 0 diag⟩

/-- The rejection-sampling inner loop of `SparseRand`/`SparseRandN`:
draw a flat index (the t-th draw of the index stream, reduced mod size
as `rand.Intn(size)` guarantees), accept when the cell is currently
zero.  `fuel` bounds the modelled iterations: the Go loop is unbounded,
so exhausted fuel returns `none`. -/
def sparseRandDraw (m : sparseCooF64Matrix) (size : ℕ) (idxs : ℕ → ℕ) (t : ℕ) :
    ℕ → Option (List ℕ × ℕ)
  | 0 => none
  | fuel + 1 =>
    let coord := flatToNd [m.rows, m.cols] (idxs t % size)
    if m.itemAt coord = F64.zero then some (coord, t + 1)
    else sparseRandDraw m size idxs (t + 1) fuel

/-- The outer loop of `SparseRand`/`SparseRandN`: populate `k` more
cells; the i-th accepted cell receives the i-th draw of the value
stream. -/
def sparseRandFill (size : ℕ) (idxs : ℕ → ℕ) (vals : ℕ → F64) (fuel : ℕ) :
    sparseCooF64Matrix → ℕ → ℕ → ℕ → Option sparseCooF64Matrix
  | m, _, _, 0 => some m
  | m, i, t, k + 1 =>
    match sparseRandDraw m size idxs t fuel with
    | none => none
    | some (coord, t2) => sparseRandFill size idxs vals fuel (m.itemSetAt (vals i) coord) (i + 1) t2 k

/-- `SparseRand(rows, cols, density)` with the process-wide random
generator made explicit: `idxs` models the successive `rand.Intn(size)`
draws and `vals` the successive `rand.Float64()` draws (contract:
values in [0,1)).  `Except.error` models the density-precondition
panic; `none` inside models exhausted fuel (the unbounded Go loop). -/
def SparseRand (rows cols : ℕ) (density : ℚ) (idxs : ℕ → ℕ) (vals : ℕ → F64)
    (fuel : ℕ) : Except String (Option sparseCooF64Matrix) :=
  if density < 0 ∨ 1 ≤ density then
    .error "density should be in the half-open unit interval"
  else
    let size := rows * cols
    let count := (density * (size : ℚ)).floor.toNat
    .ok (sparseRandFill size idxs vals fuel (cooEmpty rows cols) 0 0 count)

/-- `SparseRandN(rows, cols, density)`: identical control flow to
`SparseRand`; `vals` models the successive `rand.NormFloat64()`
draws. -/
def SparseRandN (rows cols : ℕ) (density : ℚ) (idxs : ℕ → ℕ) (vals : ℕ → F64)
    (fuel : ℕ) : Except String (Option sparseCooF64Matrix) :=
  if density < 0 ∨ 1 ≤ density then
    .error "density should be in the half-open unit interval"
  else
    let size := rows * cols
    let count := (density * (size : ℚ)).floor.toNat
    .ok (sparseRandFill size idxs vals fuel (cooEmpty rows cols) 0 0 count)

/-- Number of materialized entries of one row map holding a nonzero
value. -/
def rowNonzeroCount (r : AssocRow) : ℕ :=
  (r.filter (fun p => p.2 != F64.zero)).length

/-- Number of materialized entries holding a nonzero value (for rows
built by `alSet` from empty, keys are unique, so this is the number of
nonzero cells). -/
def cooNonzeroCount (m : sparseCooF64Matrix) : ℕ :=
  (m.values.map rowNonzeroCount).sum

/-- Every stored value of the matrix satisfies `Q`. -/
def cooValsProp (m : sparseCooF64Matrix) (Q : F64 → Prop) : Prop :=
  ∀ row ∈ m.values, ∀ p ∈ row, Q p.2

/-- The external backend's dense matrix (`mat64.Dense`), modelled
through the interface the bridge uses: dimensions and a row-major
buffer. -/
structure Mat64Dense where
  rows : ℕ
  cols : ℕ
  buf : List F64
  deriving DecidableEq, Repr

/-- Backend element read `At(i, j)`: row-major buffer access. -/
def Mat64Dense.At (m : Mat64Dense) (i j : ℕ) : F64 :=
  m.buf.getD (i * m.cols + j) F64.zero

/-- Backend construction `mat64.NewDense(r, c, buf)` from a row-major
buffer. -/
def mat64NewDense (r c : ℕ) (buf : List F64) : Mat64Dense := ⟨r, c, buf⟩

/-- `ToMat64(m)`: hand any representation to the backend as
`NewDense(m.Rows(), m.Cols(), m.Array())`. -/
def ToMat64 (m : Matrix) : Mat64Dense :=
  mat64NewDense m.RowsOf m.ColsOf m.toFlatArray

/-- Inner loop of `ToMatrix`: write one row's `cols` entries,
`array.ItemSet(m.At(i0, i1), i0, i1)`, with `k` iterations left. -/
def toMatrixFillRow (b : Mat64Dense) (i0 : ℕ) : ℕ → ℕ → List F64 → List F64
  | _, 0, buf => buf
  | i1, k + 1, buf => toMatrixFillRow b i0 (i1 + 1) k (buf.set (i0 * b.cols + i1) (b.At i0 i1))

/-- Outer loop of `ToMatrix`: write the rows one after the other, with
`k` rows left. -/
def toMatrixFillAll (b : Mat64Dense) : ℕ → ℕ → List F64 → List F64
  | _, 0, buf => buf
  | i0, k + 1, buf => toMatrixFillAll b (i0 + 1) k (toMatrixFillRow b i0 0 b.cols buf)

/-- `ToMatrix(m)`: wrap a backend dense result back into the dense
representation — allocate a rows×cols zero buffer and copy every
element over with the double loop. -/
def ToMatrix (b : Mat64Dense) : Matrix :=
  .dense ⟨b.rows, b.cols,
    toMatrixFillAll b 0 b.rows (List.replicate (b.rows * b.cols) F64.zero)⟩

/-- Modelled from the spec: `WithValue(v, rows, cols).M()` (ndarray
layer) — a dense rows×cols matrix with `v` in every cell. -/
def WithValueM (v : F64) (rows cols : ℕ) : Matrix :=
  .dense ⟨rows, cols, List.replicate (rows * cols) v⟩

/-- Free function `Inverse(a)`: delegate to the backend's inversion
(passed as `inv`; `.error` is the backend's singularity failure).  Go
returns `(nil, err)` on failure, modelled by `Except.error`: an error
carries no matrix. -/
def Inverse (inv : Mat64Dense → Except String Mat64Dense) (a : Matrix) :
    Except String Matrix :=
  match inv (ToMat64 a) with
  | .error e => .error e
  | .ok m => .ok (ToMatrix m)

/-- Free function `LDivide(a, b)`: delegate to the backend's solver
(passed as `solve`; `none` is the solver's singularity failure).  On
failure returns `WithValue(NaN, a.Shape()[0], b.Shape()[1]).M()` — no
error channel exists in the return type. -/
def LDivide (solve : Mat64Dense → Mat64Dense → Option Mat64Dense) (a b : Matrix) : Matrix :=
  match solve (ToMat64 a) (ToMat64 b) with
  | none => WithValueM F64.nan (a.ShapeOf.getD 0 0) (b.ShapeOf.getD 1 0)
  | some x => ToMatrix x

/-- Free function `Solve(a, b)`: an alias for `LDivide`. -/
def Solve (solve : Mat64Dense → Mat64Dense → Option Mat64Dense) (a b : Matrix) : Matrix :=
  LDivide solve a b

/-- Whether every off-diagonal cell of the matrix is zero. -/
def offDiagAllZero (m : Matrix) : Bool :=
  decide (∀ i < m.RowsOf, ∀ j < m.ColsOf, i ≠ j → m.item i j = F64.zero)

/-- Modelled from the spec: the capability method `SparseDiag()` —
re-express the matrix in sparse diagonal format, copying the main
diagonal; panic (modelled as `none`) when any off-diagonal cell is
nonzero. -/
def Matrix.SparseDiag (m : Matrix) : Option sparseDiagF64Matrix :=
  if offDiagAllZero m then
    some ⟨m.RowsOf, m.ColsOf,
      (List.range (min m.RowsOf m.ColsOf)).map (fun k => m.item k k)⟩
  else none

theorem getD_set' {α : Type} (l : List α) (i k : ℕ) (v d : α) :
    (l.set i v).getD k d = if i = k ∧ i < l.length then v else l.getD k d := by
  rw [List.getD_eq_getElem?_getD, List.getD_eq_getElem?_getD, List.getElem?_set]
  by_cases h : i = k
  · subst h
    by_cases h2 : i < l.length
    · simp [h2]
    · simp [h2, List.getElem?_eq_none (by omega : l.length ≤ i)]
  · simp [h]

theorem getD_replicate' {α : Type} (n k : ℕ) (a d : α) :
    (List.replicate n a).getD k d = if k < n then a else d := by
  rw [List.getD_eq_getElem?_getD, List.getElem?_replicate]
  by_cases h : k < n <;> simp [h]

theorem getD_map_range {α : Type} (f : ℕ → α) (n k : ℕ) (d : α) :
    ((List.range n).map f).getD k d = if k < n then f k else d := by
  rw [List.getD_eq_getElem?_getD, List.getElem?_map]
  by_cases h : k < n
  · simp [List.getElem?_range h, h]
  · have hnone : (List.range n)[k]? = none :=
      List.getElem?_eq_none (by simpa using Nat.le_of_not_lt h)
    simp [hnone, h]

theorem flatIdx_lt {i j r c : ℕ} (hi : i < r) (hj : j < c) : i * c + j < r * c := by
  have h1 : i * c + j < (i + 1) * c := by rw [Nat.succ_mul]; omega
  have h2 : (i + 1) * c ≤ r * c := Nat.mul_le_mul_right c hi
  omega

theorem setDiagVals_length (l : List F64) : ∀ (pos : ℕ) (buf : List F64),
    (setDiagVals buf pos l).length = buf.length := by
  induction l with
  | nil => intro pos buf; rfl
  | cons v rest ih =>
    intro pos buf
    simp only [setDiagVals, ih, List.length_set]

theorem setDiagVals_getD (l : List F64) : ∀ (pos : ℕ) (buf : List F64) (p : ℕ) (d : F64),
    (setDiagVals buf pos l).getD p d =
      if pos ≤ p ∧ p < pos + l.length ∧ p < buf.length then l.getD (p - pos) d
      else buf.getD p d := by
  induction l with
  | nil =>
    intro pos buf p d
    simp only [setDiagVals, List.length_nil]
    rw [if_neg (by omega)]
  | cons v rest ih =>
    intro pos buf p d
    simp only [setDiagVals, List.length_cons]
    rw [ih, List.length_set]
    by_cases hc : pos + 1 ≤ p ∧ p < pos + 1 + rest.length ∧ p < buf.length
    · rw [if_pos hc, if_pos (by omega)]
      have hsub : p - pos = (p - (pos + 1)) + 1 := by omega
      rw [hsub, List.getD_cons_succ]
    · rw [if_neg hc, getD_set']
      by_cases hp : pos = p ∧ pos < buf.length
      · rw [if_pos hp, if_pos (by omega)]
        have hsub : p - pos = 0 := by omega
        rw [hsub, List.getD_cons_zero]
      · rw [if_neg hp, if_neg (by omega)]

/-- C4: for every valid shape and every flat index `i` below the shape's
product, the coordinate→flat mapping applied to `flatToNd(shape, i)`
yields `i` again: the row-major flat→coordinate and coordinate→flat
mappings form a true inverse pair. -/
theorem claim_C4_flat_coordinate_roundtrip (shape : List ℕ) (i : ℕ)
    (h : i < listProd shape) : ndToFlat shape (flatToNd shape i) = i :=
  ndToFlat_flatToNd shape i h

theorem claim_C4_witness :
    5 < listProd [2, 3] ∧ ndToFlat [2, 3] (flatToNd [2, 3] 5) = 5 :=
  ⟨by decide, claim_C4_flat_coordinate_roundtrip [2, 3] 5 (by decide)⟩

/-- C2: whenever the backend inversion fails, the free function
`Inverse(a)` propagates the explicit error and returns no matrix — the
`.ok` channel (the only way a matrix is produced) is never used. -/
theorem claim_C2_inverse_error (inv : Mat64Dense → Except String Mat64Dense)
    (a : Matrix) (e : String) (h : inv (ToMat64 a) = .error e) :
    Inverse inv a = .error e ∧ ∀ m : Matrix, Inverse inv a ≠ .ok m := by
  unfold Inverse
  rw [h]
  exact ⟨rfl, fun m hm => by cases hm⟩

theorem claim_C2_witness :
    Inverse (fun _ => .error "matrix singular") (.coo (cooEmpty 2 2)) = .error "matrix singular" ∧
    ∀ m : Matrix, Inverse (fun _ => .error "matrix singular") (.coo (cooEmpty 2 2)) ≠ .ok m :=
  claim_C2_inverse_error (fun _ => .error "matrix singular") (.coo (cooEmpty 2 2))
    "matrix singular" rfl

/-- C1: whenever the backend linear solve fails, `LDivide(a, b)` (and
its alias `Solve`) returns — on the ordinary result channel, with no
error signal — the dense matrix `WithValue(NaN, rows(a), cols(b)).M()`:
the shape is (rows of a, columns of b) and every cell reads NaN. -/
theorem claim_C1_solve_nan_sentinel
    (solve : Mat64Dense → Mat64Dense → Option Mat64Dense) (a b : Matrix)
    (h : solve (ToMat64 a) (ToMat64 b) = none) :
    Solve solve a b = LDivide solve a b ∧
    LDivide solve a b = WithValueM F64.nan a.RowsOf b.ColsOf ∧
    (LDivide solve a b).RowsOf = a.RowsOf ∧
    (LDivide solve a b).ColsOf = b.ColsOf ∧
    ∀ i j, i < a.RowsOf → j < b.ColsOf → (LDivide solve a b).item i j = F64.nan := by
  have hld : LDivide solve a b = WithValueM F64.nan a.RowsOf b.ColsOf := by
    unfold LDivide
    rw [h]
    rfl
  refine ⟨rfl, hld, ?_, ?_, ?_⟩
  · rw [hld]; rfl
  · rw [hld]; rfl
  · intro i j hi hj
    rw [hld]
    show (List.replicate (a.RowsOf * b.ColsOf) F64.nan).getD (i * b.ColsOf + j) F64.zero = F64.nan
    rw [getD_replicate', if_pos (flatIdx_lt hi hj)]

theorem claim_C1_witness :
    Solve (fun _ _ => none) (.coo (cooEmpty 2 2)) (.coo (cooEmpty 2 1)) =
      LDivide (fun _ _ => none) (.coo (cooEmpty 2 2)) (.coo (cooEmpty 2 1)) ∧
    LDivide (fun _ _ => none) (.coo (cooEmpty 2 2)) (.coo (cooEmpty 2 1)) =
      WithValueM F64.nan (Matrix.coo (cooEmpty 2 2)).RowsOf (Matrix.coo (cooEmpty 2 1)).ColsOf ∧
    (LDivide (fun _ _ => none) (.coo (cooEmpty 2 2)) (.coo (cooEmpty 2 1))).RowsOf =
      (Matrix.coo (cooEmpty 2 2)).RowsOf ∧
    (LDivide (fun _ _ => none) (.coo (cooEmpty 2 2)) (.coo (cooEmpty 2 1))).ColsOf =
      (Matrix.coo (cooEmpty 2 1)).ColsOf ∧
    ∀ i j, i < (Matrix.coo (cooEmpty 2 2)).RowsOf → j < (Matrix.coo (cooEmpty 2 1)).ColsOf →
      (LDivide (fun _ _ => none) (.coo (cooEmpty 2 2)) (.coo (cooEmpty 2 1))).item i j = F64.nan :=
  claim_C1_solve_nan_sentinel (fun _ _ => none) (.coo (cooEmpty 2 2)) (.coo (cooEmpty 2 1)) rfl

/-- C6: `SparseRand` and `SparseRandN` fail fatally (the density
precondition panic) exactly when `density < 0` or `density ≥ 1`; for
every density in [0,1) the precondition check passes and no fatal
failure is signalled. -/
theorem claim_C6_density_precondition (rows cols : ℕ) (density : ℚ)
    (idxs : ℕ → ℕ) (vals : ℕ → F64) (fuel : ℕ) :
    ((∃ e, SparseRand rows cols density idxs vals fuel = .error e) ↔
      (density < 0 ∨ 1 ≤ density)) ∧
    ((∃ e, SparseRandN rows cols density idxs vals fuel = .error e) ↔
      (density < 0 ∨ 1 ≤ density)) := by
  unfold SparseRand SparseRandN
  by_cases h : density < 0 ∨ 1 ≤ density
  · rw [if_pos h]
    exact ⟨⟨fun _ => h, fun _ => ⟨_, rfl⟩⟩, ⟨fun _ => h, fun _ => ⟨_, rfl⟩⟩⟩
  · rw [if_neg h]
    refine ⟨⟨?_, ?_⟩, ⟨?_, ?_⟩⟩
    · rintro ⟨e, he⟩; simp at he
    · intro hd; exact absurd hd h
    · rintro ⟨e, he⟩; simp at he
    · intro hd; exact absurd hd h

/-- C7: the `SparseDiag` constructor fails fatally exactly when more
diagonal values are supplied than min(rows, cols); with at most
min(rows, cols) values it constructs a rows×cols diagonal matrix whose
buffer has length min(rows, cols) and holds each supplied value at its
diagonal position. -/
theorem claim_C7_sparsediag_constructor (rows cols : ℕ) (diag : List F64) :
    ((∃ e, SparseDiag rows cols diag = .error e) ↔ min rows cols < diag.length) ∧
    (diag.length ≤ min rows cols →
      ∃ m, SparseDiag rows cols diag = .ok m ∧ m.rows = rows ∧ m.cols = cols ∧
        m.diag.length = min rows cols ∧
        ∀ pos, pos < diag.length → m.diag.getD pos F64.zero = diag.getD pos F64.zero) := by
  have hsize : (if cols < rows then cols else rows) = min rows cols := by
    split <;> omega
  constructor
  · unfold SparseDiag
    by_cases h : diag.length > rows ∨ diag.length > cols
    · rw [if_pos h]
      exact ⟨fun _ => by omega, fun _ => ⟨_, rfl⟩⟩
    · rw [if_neg h]
      refine ⟨?_, ?_⟩
      · rintro ⟨e, he⟩; simp at he
      · intro hd; omega
  · intro hle
    have hguard : ¬(diag.length > rows ∨ diag.length > cols) := by omega
    refine ⟨⟨rows, cols, setDiagVals (List.replicate (if cols < rows then cols else rows) F64.zero) 0 diag⟩,
      ?_, rfl, rfl, ?_, ?_⟩
    · unfold SparseDiag
      rw [if_neg hguard]
    · rw [setDiagVals_length, List.length_replicate, hsize]
    · intro pos hpos
      rw [setDiagVals_getD, if_pos (by simp [hsize]; omega)]
      simp

theorem claim_C7_witness :
    (((∃ e, SparseDiag 2 3 [F64.num 1, F64.num 2] = .error e) ↔
        min 2 3 < ([F64.num 1, F64.num 2] : List F64).length) ∧
      (([F64.num 1, F64.num 2] : List F64).length ≤ min 2 3 →
        ∃ m, SparseDiag 2 3 [F64.num 1, F64.num 2] = .ok m ∧ m.rows = 2 ∧ m.cols = 3 ∧
          m.diag.length = min 2 3 ∧
          ∀ pos, pos < ([F64.num 1, F64.num 2] : List F64).length →
            m.diag.getD pos F64.zero = ([F64.num 1, F64.num 2] : List F64).getD pos F64.zero)) ∧
    (2 : ℕ) ≤ min 2 3 :=
  ⟨claim_C7_sparsediag_constructor 2 3 [F64.num 1, F64.num 2], by decide⟩

/-- C5: converting a matrix whose off-diagonal cells are all zero to
sparse diagonal format succeeds and copies the main diagonal; a single
nonzero off-diagonal cell makes the conversion fail fatally. -/
theorem claim_C5_sparsediag_conversion (m : Matrix) :
    ((∀ i, i < m.RowsOf → ∀ j, j < m.ColsOf → i ≠ j → m.item i j = F64.zero) →
      ∃ d, m.SparseDiag = some d ∧ d.rows = m.RowsOf ∧ d.cols = m.ColsOf ∧
        ∀ k, k < min m.RowsOf m.ColsOf → d.item k k = m.item k k) ∧
    ((∃ i, i < m.RowsOf ∧ ∃ j, j < m.ColsOf ∧ i ≠ j ∧ m.item i j ≠ F64.zero) →
      m.SparseDiag = none) := by
  constructor
  · intro hz
    have hall : offDiagAllZero m = true := by
      unfold offDiagAllZero
      exact decide_eq_true_eq.mpr hz
    refine ⟨⟨m.RowsOf, m.ColsOf,
        (List.range (min m.RowsOf m.ColsOf)).map (fun k => m.item k k)⟩, ?_, rfl, rfl, ?_⟩
    · unfold Matrix.SparseDiag
      rw [if_pos hall]
    · intro k hk
      show (if k = k then _ else _) = m.item k k
      rw [if_pos rfl, getD_map_range, if_pos hk]
  · rintro ⟨i, hi, j, hj, hne, hnz⟩
    have hall : ¬(offDiagAllZero m = true) := by
      unfold offDiagAllZero
      rw [decide_eq_true_eq]
      intro hz
      exact hnz (hz i hi j hj hne)
    unfold Matrix.SparseDiag
    rw [if_neg hall]

theorem claim_C5_witness :
    (∃ d, Matrix.SparseDiag (.coo ⟨2, 2, [[(0, F64.num 1)], [(1, F64.num 2)]]⟩) = some d ∧
      d.rows = 2 ∧ d.cols = 2 ∧
      ∀ k, k < min 2 2 →
        d.item k k = (Matrix.coo ⟨2, 2, [[(0, F64.num 1)], [(1, F64.num 2)]]⟩).item k k) ∧
    Matrix.SparseDiag (.coo ⟨2, 2, [[(0, F64.num 1), (1, F64.num 1)], [(1, F64.num 2)]]⟩) = none :=
  ⟨(claim_C5_sparsediag_conversion (.coo ⟨2, 2, [[(0, F64.num 1)], [(1, F64.num 2)]]⟩)).1
      (by decide),
   (claim_C5_sparsediag_conversion (.coo ⟨2, 2, [[(0, F64.num 1), (1, F64.num 1)], [(1, F64.num 2)]]⟩)).2
      ⟨0, by decide, 1, by decide, by decide, by decide⟩⟩

theorem div_mod_of_row {p i0 c : ℕ} (h1 : i0 * c ≤ p) (h2 : p < i0 * c + c) :
    p / c = i0 ∧ p % c = p - i0 * c := by
  have hc : 0 < c := by omega
  have hr1 : p = c * i0 + (p - i0 * c) := by rw [Nat.mul_comm]; omega
  have hr2 : p - i0 * c < c := by omega
  constructor
  · have hd := Nat.mul_add_div hc i0 (p - i0 * c)
    rw [← hr1] at hd
    rw [Nat.div_eq_of_lt hr2] at hd
    simpa using hd
  · have hm := Nat.mul_add_mod c i0 (p - i0 * c)
    rw [← hr1] at hm
    rw [Nat.mod_eq_of_lt hr2] at hm
    exact hm

theorem toMatrixFillRow_length (b : Mat64Dense) (i0 : ℕ) : ∀ (k i1 : ℕ) (buf : List F64),
    (toMatrixFillRow b i0 i1 k buf).length = buf.length := by
  intro k
  induction k with
  | zero => intro i1 buf; rfl
  | succ k ih => intro i1 buf; simp only [toMatrixFillRow, ih, List.length_set]

theorem toMatrixFillRow_getD (b : Mat64Dense) (i0 : ℕ) :
    ∀ (k i1 : ℕ) (buf : List F64) (p : ℕ) (d : F64),
    (toMatrixFillRow b i0 i1 k buf).getD p d =
      if i0 * b.cols + i1 ≤ p ∧ p < i0 * b.cols + i1 + k ∧ p < buf.length
      then b.At i0 (p - i0 * b.cols) else buf.getD p d := by
  intro k
  induction k with
  | zero =>
    intro i1 buf p d
    simp only [toMatrixFillRow]
    rw [if_neg (by omega)]
  | succ k ih =>
    intro i1 buf p d
    simp only [toMatrixFillRow]
    rw [ih, List.length_set]
    by_cases hc : i0 * b.cols + (i1 + 1) ≤ p ∧ p < i0 * b.cols + (i1 + 1) + k ∧ p < buf.length
    · rw [if_pos hc, if_pos (by omega)]
    · rw [if_neg hc, getD_set']
      by_cases hp : i0 * b.cols + i1 = p ∧ i0 * b.cols + i1 < buf.length
      · rw [if_pos hp, if_pos (by omega)]
        have hi1 : p - i0 * b.cols = i1 := by omega
        rw [hi1]
      · rw [if_neg hp, if_neg (by omega)]

theorem toMatrixFillAll_length (b : Mat64Dense) : ∀ (k i0 : ℕ) (buf : List F64),
    (toMatrixFillAll b i0 k buf).length = buf.length := by
  intro k
  induction k with
  | zero => intro i0 buf; rfl
  | succ k ih => intro i0 buf; simp only [toMatrixFillAll, ih, toMatrixFillRow_length]

theorem toMatrixFillAll_getD (b : Mat64Dense) :
    ∀ (k i0 : ℕ) (buf : List F64) (p : ℕ) (d : F64),
    (toMatrixFillAll b i0 k buf).getD p d =
      if i0 * b.cols ≤ p ∧ p < (i0 + k) * b.cols ∧ p < buf.length
      then b.At (p / b.cols) (p % b.cols) else buf.getD p d := by
  intro k
  induction k with
  | zero =>
    intro i0 buf p d
    simp only [toMatrixFillAll]
    rw [if_neg (by
      have e0 : (i0 + 0) * b.cols = i0 * b.cols := by ring
      omega)]
  | succ k ih =>
    intro i0 buf p d
    simp only [toMatrixFillAll]
    rw [ih, toMatrixFillRow_length]
    have e1 : (i0 + 1) * b.cols = i0 * b.cols + b.cols := by ring
    have e2 : (i0 + 1 + k) * b.cols = i0 * b.cols + b.cols + k * b.cols := by ring
    have e3 : (i0 + (k + 1)) * b.cols = i0 * b.cols + b.cols + k * b.cols := by ring
    by_cases hc : (i0 + 1) * b.cols ≤ p ∧ p < (i0 + 1 + k) * b.cols ∧ p < buf.length
    · rw [if_pos hc, if_pos (by omega)]
    · rw [if_neg hc, toMatrixFillRow_getD]
      by_cases hr : i0 * b.cols + 0 ≤ p ∧ p < i0 * b.cols + 0 + b.cols ∧ p < buf.length
      · rw [if_pos hr, if_pos (by omega)]
        obtain ⟨hdiv, hmod⟩ := div_mod_of_row (show i0 * b.cols ≤ p by omega)
          (show p < i0 * b.cols + b.cols by omega)
        rw [hdiv, hmod]
      · rw [if_neg hr, if_neg (by omega)]

/-- C8: for every matrix of any storage kind, the backend round trip
`ToMatrix(ToMat64(m))` produces a dense-representation matrix with the
same row count, the same column count, and element-for-element equal
values. -/
theorem claim_C8_backend_roundtrip (m : Matrix) :
    (∃ d, ToMatrix (ToMat64 m) = .dense d) ∧
    (ToMatrix (ToMat64 m)).RowsOf = m.RowsOf ∧
    (ToMatrix (ToMat64 m)).ColsOf = m.ColsOf ∧
    ∀ i j, i < m.RowsOf → j < m.ColsOf → (ToMatrix (ToMat64 m)).item i j = m.item i j := by
  refine ⟨⟨_, rfl⟩, rfl, rfl, ?_⟩
  intro i j hi hj
  have hp : i * m.ColsOf + j < m.RowsOf * m.ColsOf := flatIdx_lt hi hj
  obtain ⟨hdiv, hmod⟩ := div_mod_of_row
    (show i * m.ColsOf ≤ i * m.ColsOf + j by omega)
    (show i * m.ColsOf + j < i * m.ColsOf + m.ColsOf by omega)
  have hmod' : (i * m.ColsOf + j) % m.ColsOf = j := by omega
  show (toMatrixFillAll (ToMat64 m) 0 (ToMat64 m).rows
      (List.replicate ((ToMat64 m).rows * (ToMat64 m).cols) F64.zero)).getD
      (i * (ToMat64 m).cols + j) F64.zero = m.item i j
  have hb : ToMat64 m = ⟨m.RowsOf, m.ColsOf, m.toFlatArray⟩ := rfl
  rw [hb]
  rw [toMatrixFillAll_getD]
  dsimp only
  have e0 : (0 : ℕ) * m.ColsOf = 0 := by ring
  have e1 : (0 + m.RowsOf) * m.ColsOf = m.RowsOf * m.ColsOf := by ring
  rw [if_pos (by
    refine ⟨by omega, by omega, ?_⟩
    rw [List.length_replicate]
    exact hp)]
  show m.toFlatArray.getD
      ((i * m.ColsOf + j) / m.ColsOf * m.ColsOf + (i * m.ColsOf + j) % m.ColsOf) F64.zero =
    m.item i j
  rw [hdiv, hmod']
  unfold Matrix.toFlatArray
  rw [getD_map_range, if_pos hp, hdiv, hmod']

theorem claim_C8_witness :
    (∃ d, ToMatrix (ToMat64 (.diag ⟨2, 3, [F64.num 5, F64.num 7]⟩)) = .dense d) ∧
    (ToMatrix (ToMat64 (.diag ⟨2, 3, [F64.num 5, F64.num 7]⟩))).item 1 1 =
      (Matrix.diag ⟨2, 3, [F64.num 5, F64.num 7]⟩).item 1 1 :=
  ⟨(claim_C8_backend_roundtrip (.diag ⟨2, 3, [F64.num 5, F64.num 7]⟩)).1,
   (claim_C8_backend_roundtrip (.diag ⟨2, 3, [F64.num 5, F64.num 7]⟩)).2.2.2 1 1
     (by decide) (by decide)⟩

theorem listProd_pair (r c : ℕ) : listProd [r, c] = r * c := by
  simp [listProd]

theorem flatToNd_pair (r c idx : ℕ) : flatToNd [r, c] idx = [idx / c % r, idx % c] := by
  simp [flatToNd, flatToNdAux]

theorem flatToNd_pair_valid {r c idx : ℕ} (h : idx < r * c) :
    flatToNd [r, c] idx = [idx / c, idx % c] ∧ idx / c < r ∧ idx % c < c := by
  have hc : 0 < c := by
    by_contra hc
    have hc0 : c = 0 := by omega
    subst hc0
    simp at h
  have hdiv : idx / c < r := Nat.div_lt_of_lt_mul (by rwa [Nat.mul_comm] at h)
  rw [flatToNd_pair]
  exact ⟨by rw [Nat.mod_eq_of_lt hdiv], hdiv, Nat.mod_lt _ hc⟩

theorem find?_filter_ne (r : AssocRow) (j j' : ℕ) (h : j ≠ j') :
    (r.filter (fun p => p.1 != j)).find? (fun p => p.1 == j') =
      r.find? (fun p => p.1 == j') := by
  induction r with
  | nil => rfl
  | cons p rest ih =>
    by_cases hpj : p.1 = j
    · have h1 : (p.1 != j) = false := by simp [hpj]
      have h2 : (p.1 == j') = false := by simp [hpj]; omega
      simp [List.filter_cons, h1, List.find?_cons, h2, ih]
    · have h1 : (p.1 != j) = true := by simp [hpj]
      by_cases hpj' : p.1 = j'
      · have h2 : (p.1 == j') = true := by simp [hpj']
        simp [List.filter_cons, h1, List.find?_cons, h2]
      · have h2 : (p.1 == j') = false := by simp [hpj']
        simp [List.filter_cons, h1, List.find?_cons, h2, ih]

theorem alGet_alSet_self (r : AssocRow) (j : ℕ) (v : F64) :
    alGet (alSet r j v) j = some v := by
  simp [alGet, alSet, List.find?_cons]

theorem alGet_alSet_ne (r : AssocRow) (j j' : ℕ) (v : F64) (h : j ≠ j') :
    alGet (alSet r j v) j' = alGet r j' := by
  have h2 : ((j, v).1 == j') = false := by simp; omega
  simp only [alGet, alSet, List.find?_cons, h2]
  rw [find?_filter_ne r j j' h]

theorem cooItemSet_rows (m : sparseCooF64Matrix) (v : F64) (i j : ℕ) :
    (m.itemSet v i j).rows = m.rows := rfl

theorem cooItemSet_cols (m : sparseCooF64Matrix) (v : F64) (i j : ℕ) :
    (m.itemSet v i j).cols = m.cols := rfl

theorem cooItemSet_values_length (m : sparseCooF64Matrix) (v : F64) (i j : ℕ) :
    (m.itemSet v i j).values.length = m.values.length := by
  unfold sparseCooF64Matrix.itemSet
  exact List.length_set ..

theorem cooStored_itemSet_self (m : sparseCooF64Matrix) (v : F64) (i j : ℕ)
    (h : i < m.values.length) : (m.itemSet v i j).stored i j = some v := by
  unfold sparseCooF64Matrix.itemSet sparseCooF64Matrix.stored
  dsimp only
  rw [getD_set', if_pos ⟨rfl, h⟩, alGet_alSet_self]

theorem cooStored_itemSet_ne (m : sparseCooF64Matrix) (v : F64) (i j i' j' : ℕ)
    (hne : ¬(i = i' ∧ j = j')) : (m.itemSet v i j).stored i' j' = m.stored i' j' := by
  unfold sparseCooF64Matrix.itemSet sparseCooF64Matrix.stored
  dsimp only
  rw [getD_set']
  by_cases hi : i = i' ∧ i < m.values.length
  · rw [if_pos hi]
    obtain ⟨hie, _⟩ := hi
    subst hie
    have hj : j ≠ j' := fun hje => hne ⟨rfl, hje⟩
    rw [alGet_alSet_ne _ _ _ _ hj]
  · rw [if_neg hi]

theorem cooEmpty_stored (rows cols i j : ℕ) : (cooEmpty rows cols).stored i j = none := by
  unfold cooEmpty sparseCooF64Matrix.stored
  dsimp only
  rw [getD_replicate']
  split <;> rfl

theorem sparseCooInit_shape (l : List F64) : ∀ (idx0 : ℕ) (m m' : sparseCooF64Matrix),
    sparseCooInit m idx0 l = .ok m' →
    m'.rows = m.rows ∧ m'.cols = m.cols ∧ m'.values.length = m.values.length := by
  induction l with
  | nil =>
    intro idx0 m m' hok
    injection hok with h
    subst h
    exact ⟨rfl, rfl, rfl⟩
  | cons v rest ih =>
    intro idx0 m m' hok
    simp only [sparseCooInit] at hok
    by_cases hv : v = F64.zero
    · rw [if_pos hv] at hok
      exact ih _ _ _ hok
    · rw [if_neg hv] at hok
      unfold flatToNdChecked at hok
      by_cases hvalid : idx0 < listProd [m.rows, m.cols]
      · rw [if_pos hvalid] at hok
        simp only [] at hok
        have hvr : idx0 < m.rows * m.cols := by rwa [listProd_pair] at hvalid
        obtain ⟨hcoord, hi0, hj0⟩ := flatToNd_pair_valid hvr
        rw [hcoord] at hok
        simp only [sparseCooF64Matrix.itemSetAt] at hok
        obtain ⟨h1, h2, h3⟩ := ih _ _ _ hok
        exact ⟨h1, h2, by rw [h3, cooItemSet_values_length]⟩
      · rw [if_neg hvalid] at hok
        simp only [] at hok
        cases hok

/-- Any literal position whose value is nonzero must lie inside the
matrix, otherwise the construction would have panicked. -/
theorem sparseCooInit_valid (l : List F64) : ∀ (idx0 : ℕ) (m m' : sparseCooF64Matrix),
    sparseCooInit m idx0 l = .ok m' →
    ∀ n, n < l.length → l.getD n F64.zero ≠ F64.zero → idx0 + n < m.rows * m.cols := by
  induction l with
  | nil =>
    intro idx0 m m' _ n hn
    exact absurd hn (by simp)
  | cons v rest ih =>
    intro idx0 m m' hok n hn hnz
    simp only [sparseCooInit] at hok
    by_cases hv : v = F64.zero
    · rw [if_pos hv] at hok
      match n with
      | 0 =>
        rw [List.getD_cons_zero] at hnz
        exact absurd hv hnz
      | n' + 1 =>
        rw [List.getD_cons_succ] at hnz
        have := ih (idx0 + 1) m m' hok n' (by simpa using hn) hnz
        omega
    · rw [if_neg hv] at hok
      unfold flatToNdChecked at hok
      by_cases hvalid : idx0 < listProd [m.rows, m.cols]
      · have hvr : idx0 < m.rows * m.cols := by rwa [listProd_pair] at hvalid
        rw [if_pos hvalid] at hok
        simp only [] at hok
        obtain ⟨hcoord, hi0, hj0⟩ := flatToNd_pair_valid hvr
        rw [hcoord] at hok
        simp only [sparseCooF64Matrix.itemSetAt] at hok
        match n with
        | 0 => omega
        | n' + 1 =>
          rw [List.getD_cons_succ] at hnz
          have := ih (idx0 + 1) _ m' hok n' (by simpa using hn) hnz
          rw [cooItemSet_rows, cooItemSet_cols] at this
          omega
      · rw [if_neg hvalid] at hok
        simp only [] at hok
        cases hok

/-- Positions the literal writes only with zero values (or not at all)
keep their prior stored binding. -/
theorem sparseCooInit_preserve (l : List F64) : ∀ (idx0 : ℕ) (m m' : sparseCooF64Matrix),
    sparseCooInit m idx0 l = .ok m' →
    ∀ i j, i < m.rows → j < m.cols →
      (∀ n, n < l.length → idx0 + n = i * m.cols + j → l.getD n F64.zero = F64.zero) →
      m'.stored i j = m.stored i j := by
  induction l with
  | nil =>
    intro idx0 m m' hok i j _ _ _
    injection hok with h
    subst h
    rfl
  | cons v rest ih =>
    intro idx0 m m' hok i j hi hj hzero
    simp only [sparseCooInit] at hok
    by_cases hv : v = F64.zero
    · rw [if_pos hv] at hok
      exact ih (idx0 + 1) m m' hok i j hi hj (fun n hn he =>
        hzero (n + 1) (by simpa using hn) (by omega))
    · rw [if_neg hv] at hok
      unfold flatToNdChecked at hok
      by_cases hvalid : idx0 < listProd [m.rows, m.cols]
      · have hvr : idx0 < m.rows * m.cols := by rwa [listProd_pair] at hvalid
        rw [if_pos hvalid] at hok
        simp only [] at hok
        obtain ⟨hcoord, hi0, hj0⟩ := flatToNd_pair_valid hvr
        rw [hcoord] at hok
        simp only [sparseCooF64Matrix.itemSetAt] at hok
        have hstep := ih (idx0 + 1) _ m' hok i j (by rwa [cooItemSet_rows])
          (by rwa [cooItemSet_cols]) (fun n hn he =>
            hzero (n + 1) (by simpa using hn) (by
              rw [cooItemSet_cols] at he
              omega))
        rw [hstep]
        apply cooStored_itemSet_ne
        rintro ⟨hie, hje⟩
        have hf : idx0 = i * m.cols + j := by
          subst hie hje
          rw [Nat.mul_comm]
          exact (Nat.div_add_mod idx0 m.cols).symm
        exact hv (hzero 0 (by simp) (by omega))
      · rw [if_neg hvalid] at hok
        simp only [] at hok
        cases hok

/-- A nonzero literal value ends up stored at the row-major coordinate
of its flat index. -/
theorem sparseCooInit_write (l : List F64) : ∀ (idx0 : ℕ) (m m' : sparseCooF64Matrix),
    m.values.length = m.rows →
    sparseCooInit m idx0 l = .ok m' →
    ∀ n, n < l.length → l.getD n F64.zero ≠ F64.zero →
      m'.stored ((idx0 + n) / m.cols) ((idx0 + n) % m.cols) = some (l.getD n F64.zero) := by
  induction l with
  | nil =>
    intro idx0 m m' _ _ n hn
    exact absurd hn (by simp)
  | cons v rest ih =>
    intro idx0 m m' hlen hok n hn hnz
    have hvalidn := sparseCooInit_valid (v :: rest) idx0 m m' hok n hn hnz
    simp only [sparseCooInit] at hok
    by_cases hv : v = F64.zero
    · rw [if_pos hv] at hok
      match n with
      | 0 =>
        rw [List.getD_cons_zero] at hnz
        exact absurd hv hnz
      | n' + 1 =>
        rw [List.getD_cons_succ] at hnz ⊢
        have := ih (idx0 + 1) m m' hlen hok n' (by simpa using hn) hnz
        rw [show idx0 + (n' + 1) = idx0 + 1 + n' by omega]
        exact this
    · rw [if_neg hv] at hok
      unfold flatToNdChecked at hok
      by_cases hvalid : idx0 < listProd [m.rows, m.cols]
      · have hvr : idx0 < m.rows * m.cols := by rwa [listProd_pair] at hvalid
        rw [if_pos hvalid] at hok
        simp only [] at hok
        obtain ⟨hcoord, hi0, hj0⟩ := flatToNd_pair_valid hvr
        rw [hcoord] at hok
        simp only [sparseCooF64Matrix.itemSetAt] at hok
        match n with
        | 0 =>
          rw [List.getD_cons_zero] at hnz ⊢
          rw [Nat.add_zero]
          have hpres := sparseCooInit_preserve rest (idx0 + 1) _ m' hok
            (idx0 / m.cols) (idx0 % m.cols)
            (by rwa [cooItemSet_rows]) (by rwa [cooItemSet_cols])
            (fun n' hn' he => by
              rw [cooItemSet_cols] at he
              have : idx0 = (idx0 / m.cols) * m.cols + idx0 % m.cols := by
                rw [Nat.mul_comm]
                exact (Nat.div_add_mod idx0 m.cols).symm
              omega)
          rw [hpres]
          exact cooStored_itemSet_self m v _ _ (by rw [hlen]; exact hi0)
        | n' + 1 =>
          rw [List.getD_cons_succ] at hnz ⊢
          have := ih (idx0 + 1) _ m' (by rw [cooItemSet_values_length, hlen, cooItemSet_rows])
            hok n' (by simpa using hn) hnz
          rw [cooItemSet_cols] at this
          rw [show idx0 + (n' + 1) = idx0 + 1 + n' by omega]
          exact this
      · rw [if_neg hvalid] at hok
        simp only [] at hok
        cases hok

/-- Construction succeeds whenever the literal fits in the matrix. -/
theorem sparseCooInit_ok (l : List F64) : ∀ (idx0 : ℕ) (m : sparseCooF64Matrix),
    idx0 + l.length ≤ m.rows * m.cols →
    ∃ m', sparseCooInit m idx0 l = .ok m' := by
  induction l with
  | nil => intro idx0 m _; exact ⟨m, rfl⟩
  | cons v rest ih =>
    intro idx0 m hle
    simp only [sparseCooInit]
    by_cases hv : v = F64.zero
    · rw [if_pos hv]
      exact ih (idx0 + 1) m (by simp at hle; omega)
    · rw [if_neg hv]
      unfold flatToNdChecked
      have hvr : idx0 < m.rows * m.cols := by simp at hle; omega
      rw [if_pos (by rwa [listProd_pair])]
      simp only []
      obtain ⟨hcoord, hi0, hj0⟩ := flatToNd_pair_valid hvr
      rw [hcoord]
      simp only [sparseCooF64Matrix.itemSetAt]
      exact ih (idx0 + 1) _ (by
        rw [cooItemSet_rows, cooItemSet_cols]
        simp at hle
        omega)

/-- C10: `SparseCoo` accepts a literal shorter than rows×cols:
construction succeeds, and every cell whose flat index is at or beyond
the literal's length reads as zero. -/
theorem claim_C10_short_literal (rows cols : ℕ) (array : List F64)
    (h : array.length ≤ rows * cols) :
    ∃ m, SparseCoo rows cols array = .ok m ∧ m.rows = rows ∧ m.cols = cols ∧
      ∀ i j, i < rows → j < cols → array.length ≤ i * cols + j → m.item i j = F64.zero := by
  obtain ⟨m, hok⟩ := sparseCooInit_ok array 0 (cooEmpty rows cols)
    (show 0 + array.length ≤ rows * cols by omega)
  obtain ⟨h1, h2, _⟩ := sparseCooInit_shape array 0 _ m hok
  refine ⟨m, hok, h1, h2, ?_⟩
  intro i j hi hj hge
  have hpres := sparseCooInit_preserve array 0 _ m hok i j hi hj (fun n hn he => by
    exfalso
    have he' : 0 + n = i * cols + j := he
    omega)
  unfold sparseCooF64Matrix.item
  rw [hpres, cooEmpty_stored]
  rfl

theorem claim_C10_witness :
    ∃ m, SparseCoo 2 2 [F64.num 3] = .ok m ∧ m.rows = 2 ∧ m.cols = 2 ∧
      ∀ i j, i < 2 → j < 2 → ([F64.num 3] : List F64).length ≤ i * 2 + j →
        m.item i j = F64.zero :=
  claim_C10_short_literal 2 2 [F64.num 3] (by decide)

/-- C9: on a successful `SparseCoo` construction, every literal
position holding a nonzero value is materialized at the row-major
coordinate of its flat index (which `flatToNd` computes), with that
value; and no entry is materialized at the coordinate of a zero-valued
literal position. -/
theorem claim_C9_literal_nonzero_storage (rows cols : ℕ) (array : List F64)
    (m : sparseCooF64Matrix) (h : SparseCoo rows cols array = .ok m) :
    ∀ idx, idx < array.length →
      (array.getD idx F64.zero ≠ F64.zero →
        idx < rows * cols ∧
        flatToNd [rows, cols] idx = [idx / cols, idx % cols] ∧
        m.stored (idx / cols) (idx % cols) = some (array.getD idx F64.zero)) ∧
      (array.getD idx F64.zero = F64.zero → idx < rows * cols →
        m.stored (idx / cols) (idx % cols) = none) := by
  intro idx hlt
  constructor
  · intro hnz
    have hvalid : 0 + idx < rows * cols :=
      sparseCooInit_valid array 0 _ m h idx hlt hnz
    refine ⟨by omega, (flatToNd_pair_valid (show idx < rows * cols by omega)).1, ?_⟩
    have hw : m.stored ((0 + idx) / cols) ((0 + idx) % cols) = some (array.getD idx F64.zero) :=
      sparseCooInit_write array 0 _ m (by
        show (List.replicate rows ([] : AssocRow)).length = rows
        exact List.length_replicate ..) h idx hlt hnz
    rw [Nat.zero_add] at hw
    exact hw
  · intro hz hvr
    obtain ⟨_, hi0, hj0⟩ := flatToNd_pair_valid hvr
    have hpres : m.stored (idx / cols) (idx % cols) =
        (cooEmpty rows cols).stored (idx / cols) (idx % cols) :=
      sparseCooInit_preserve array 0 _ m h (idx / cols) (idx % cols) hi0 hj0
        (fun n hn he => by
          have he' : 0 + n = idx / cols * cols + idx % cols := he
          have hd : idx / cols * cols + idx % cols = idx := Nat.div_add_mod' idx cols
          have hn' : n = idx := by omega
          rw [hn']
          exact hz)
    rw [hpres, cooEmpty_stored]

theorem claim_C9_witness :
    (1 < 2 * 2 ∧
      flatToNd [2, 2] 1 = [1 / 2, 1 % 2] ∧
      sparseCooF64Matrix.stored ⟨2, 2, [[(1, F64.num 5)], []]⟩ (1 / 2) (1 % 2) =
        some (([F64.zero, F64.num 5] : List F64).getD 1 F64.zero)) ∧
    sparseCooF64Matrix.stored ⟨2, 2, [[(1, F64.num 5)], []]⟩ (0 / 2) (0 % 2) = none :=
  ⟨(claim_C9_literal_nonzero_storage 2 2 [F64.zero, F64.num 5]
      ⟨2, 2, [[(1, F64.num 5)], []]⟩ rfl 1 (by decide)).1 (by decide),
   (claim_C9_literal_nonzero_storage 2 2 [F64.zero, F64.num 5]
      ⟨2, 2, [[(1, F64.num 5)], []]⟩ rfl 0 (by decide)).2 (by decide) (by decide)⟩

theorem getD_mem_or_default {α : Type} [Inhabited α] (l : List α) (i : ℕ) :
    l.getD i default ∈ l ∨ l.getD i default = default := by
  by_cases h : i < l.length
  · left
    have he : l.getD i default = l[i] := by
      rw [List.getD_eq_getElem?_getD, List.getElem?_eq_getElem h]
      rfl
    rw [he]
    exact List.getElem_mem h
  · right
    rw [List.getD_eq_getElem?_getD, List.getElem?_eq_none (by omega)]
    rfl

theorem map_sum_set {α : Type} (f : α → ℕ) (d : α) : ∀ (l : List α) (i : ℕ) (x : α),
    i < l.length →
    ((l.set i x).map f).sum + f (l.getD i d) = (l.map f).sum + f x := by
  intro l
  induction l with
  | nil => intro i x h; simp at h
  | cons a t ih =>
    intro i x h
    match i with
    | 0 =>
      simp only [List.set, List.map, List.sum_cons, List.getD_cons_zero]
      omega
    | i' + 1 =>
      simp only [List.set, List.map, List.sum_cons, List.getD_cons_succ]
      have := ih i' x (by simpa using h)
      omega

theorem rowNonzeroCount_alSet_of_none (r : AssocRow) (j : ℕ) (v : F64)
    (hget : alGet r j = none) (hv : v ≠ F64.zero) :
    rowNonzeroCount (alSet r j v) = rowNonzeroCount r + 1 := by
  have hfind : r.find? (fun p => p.1 == j) = none := by
    unfold alGet at hget
    rcases hf : r.find? (fun p => p.1 == j) with _ | p
    · exact hf
    · rw [hf] at hget
      cases hget
  have hfilter : r.filter (fun p => p.1 != j) = r :=
    List.filter_eq_self.mpr (fun p hp => by
      have := List.find?_eq_none.mp hfind p hp
      simp at this ⊢
      omega)
  unfold rowNonzeroCount alSet
  rw [hfilter, List.filter_cons]
  have hvtrue : ((j, v).2 != F64.zero) = true := by simp [hv]
  rw [if_pos hvtrue, List.length_cons]

theorem cooNonzeroCount_itemSet (m : sparseCooF64Matrix) (v : F64) (i j : ℕ)
    (hi : i < m.values.length) (hst : m.stored i j = none) (hv : v ≠ F64.zero) :
    cooNonzeroCount (m.itemSet v i j) = cooNonzeroCount m + 1 := by
  have hget : alGet (m.values.getD i default) j = none := hst
  have hsum := map_sum_set rowNonzeroCount default m.values i
    (alSet (m.values.getD i default) j v) hi
  have hrow := rowNonzeroCount_alSet_of_none (m.values.getD i default) j v hget hv
  unfold cooNonzeroCount sparseCooF64Matrix.itemSet
  dsimp only
  omega

theorem cooValsProp_itemSet (m : sparseCooF64Matrix) (Q : F64 → Prop) (v : F64) (i j : ℕ)
    (hm : cooValsProp m Q) (hv : Q v) : cooValsProp (m.itemSet v i j) Q := by
  intro row hrow p hp
  unfold sparseCooF64Matrix.itemSet at hrow
  dsimp only at hrow
  rcases List.mem_or_eq_of_mem_set hrow with h | h
  · exact hm row h p hp
  · subst h
    rcases List.mem_cons.mp hp with h | h
    · rw [h]
      exact hv
    · have hpm := List.mem_of_mem_filter h
      rcases getD_mem_or_default m.values i with hmem | hdef
      · exact hm _ hmem p hpm
      · rw [hdef] at hpm
        cases hpm

theorem stored_none_of_item_zero (m : sparseCooF64Matrix) (Q : F64 → Prop)
    (hm : cooValsProp m Q) (hQnz : ∀ v, Q v → v ≠ F64.zero) (i j : ℕ)
    (hz : m.item i j = F64.zero) : m.stored i j = none := by
  rcases hs : m.stored i j with _ | v
  · rfl
  · exfalso
    have hv : v = F64.zero := by
      unfold sparseCooF64Matrix.item at hz
      rw [hs] at hz
      simpa using hz
    subst hv
    have hs' : alGet (m.values.getD i default) j = some F64.zero := hs
    unfold alGet at hs'
    rcases hf : (m.values.getD i default).find? (fun p => p.1 == j) with _ | p
    · rw [hf] at hs'
      cases hs'
    · rw [hf] at hs'
      have hp2 : p.2 = F64.zero := by simpa using hs'
      have hpmem := List.mem_of_find?_eq_some hf
      rcases getD_mem_or_default m.values i with hmem | hdef
      · exact hQnz p.2 (hm _ hmem p hpmem) hp2
      · rw [hdef] at hpmem
        cases hpmem

theorem cooNonzeroCount_cooEmpty (rows cols : ℕ) :
    cooNonzeroCount (cooEmpty rows cols) = 0 := by
  unfold cooNonzeroCount cooEmpty
  dsimp only
  have hf : rowNonzeroCount ([] : AssocRow) = 0 := rfl
  simp [List.map_replicate, hf, List.sum_replicate]

theorem cooValsProp_cooEmpty (rows cols : ℕ) (Q : F64 → Prop) :
    cooValsProp (cooEmpty rows cols) Q := by
  intro row hrow p hp
  unfold cooEmpty at hrow
  dsimp only at hrow
  have := List.eq_of_mem_replicate hrow
  subst this
  cases hp

/-- A successful rejection-sampling draw yields an in-range coordinate
whose cell currently reads zero. -/
theorem sparseRandDraw_spec (m : sparseCooF64Matrix) (size : ℕ) (idxs : ℕ → ℕ)
    (hsz : size = m.rows * m.cols) (hpos : 0 < size) :
    ∀ (fuel t : ℕ) (coord : List ℕ) (t' : ℕ),
    sparseRandDraw m size idxs t fuel = some (coord, t') →
    ∃ i j, coord = [i, j] ∧ i < m.rows ∧ j < m.cols ∧ m.item i j = F64.zero := by
  intro fuel
  induction fuel with
  | zero => intro t coord t' h; cases h
  | succ fuel ih =>
    intro t coord t' h
    simp only [sparseRandDraw] at h
    by_cases hz : m.itemAt (flatToNd [m.rows, m.cols] (idxs t % size)) = F64.zero
    · rw [if_pos hz] at h
      have hlt : idxs t % size < m.rows * m.cols := by
        rw [← hsz]
        exact Nat.mod_lt _ hpos
      obtain ⟨hcoord, hq, hr⟩ := flatToNd_pair_valid hlt
      rw [hcoord] at hz h
      simp only [sparseCooF64Matrix.itemAt] at hz
      refine ⟨idxs t % size / m.cols, idxs t % size % m.cols, ?_, hq, hr, hz⟩
      injection h with h2
      exact (congrArg Prod.fst h2).symm
    · rw [if_neg hz] at h
      exact ih (t + 1) coord t' h

/-- Each of the `k` remaining fill iterations populates one cell that
currently reads zero with the next value draw, so the nonzero-entry
count rises by exactly `k` when every draw satisfies a nonzero
predicate. -/
theorem sparseRandFill_spec (size : ℕ) (idxs : ℕ → ℕ) (vals : ℕ → F64) (fuel : ℕ)
    (Q : F64 → Prop) (hQ : ∀ n, Q (vals n)) (hQnz : ∀ v, Q v → v ≠ F64.zero)
    (hpos : 0 < size) :
    ∀ (k : ℕ) (m : sparseCooF64Matrix) (i t : ℕ) (m' : sparseCooF64Matrix),
    size = m.rows * m.cols →
    m.values.length = m.rows →
    cooValsProp m Q →
    sparseRandFill size idxs vals fuel m i t k = some m' →
    cooNonzeroCount m' = cooNonzeroCount m + k ∧ cooValsProp m' Q ∧
    m'.rows = m.rows ∧ m'.cols = m.cols := by
  intro k
  induction k with
  | zero =>
    intro m i t m' _ _ hQm hok
    injection hok with h
    subst h
    exact ⟨by omega, hQm, rfl, rfl⟩
  | succ k ih =>
    intro m i t m' hsz hlen hQm hok
    simp only [sparseRandFill] at hok
    rcases hd : sparseRandDraw m size idxs t fuel with _ | ⟨coord, t2⟩
    · rw [hd] at hok
      cases hok
    · rw [hd] at hok
      simp only [] at hok
      obtain ⟨i0, j0, hcoord, hi0, hj0, hz⟩ :=
        sparseRandDraw_spec m size idxs hsz hpos fuel t coord t2 hd
      subst hcoord
      simp only [sparseCooF64Matrix.itemSetAt] at hok
      have hstored := stored_none_of_item_zero m Q hQm hQnz i0 j0 hz
      have hcount := cooNonzeroCount_itemSet m (vals i) i0 j0
        (by rw [hlen]; exact hi0) hstored (hQnz _ (hQ i))
      have hQm1 := cooValsProp_itemSet m Q (vals i) i0 j0 hQm (hQ i)
      obtain ⟨hc', hQ', hr', hcl'⟩ := ih (m.itemSet (vals i) i0 j0) (i + 1) t2 m'
        (by rw [cooItemSet_rows, cooItemSet_cols]; exact hsz)
        (by rw [cooItemSet_values_length, cooItemSet_rows]; exact hlen)
        hQm1 hok
      refine ⟨?_, hQ', ?_, ?_⟩
      · rw [hc', hcount]
        omega
      · rw [hr', cooItemSet_rows]
      · rw [hcl', cooItemSet_cols]

/-- C3 (amended): for `0 ≤ density < 1`, when `SparseRand` completes it
populates exactly `floor(density·rows·cols)` cells with draws from the
value stream; provided every draw lies in the OPEN interval (0,1) — a
draw of exactly 0, which `rand.Float64`'s range [0,1) permits, escapes
the count — the result holds exactly `floor(density·rows·cols)` nonzero
entries, every stored value lies in [0,1), and a zero density yields
zero nonzero entries. -/
theorem claim_C3_sparserand_counted (rows cols : ℕ) (density : ℚ) (idxs : ℕ → ℕ)
    (vals : ℕ → F64) (fuel : ℕ) (m : sparseCooF64Matrix)
    (hd0 : 0 ≤ density) (hd1 : density < 1)
    (hvals : ∀ n, ∃ q : ℚ, vals n = F64.num q ∧ 0 < q ∧ q < 1)
    (hok : SparseRand rows cols density idxs vals fuel = .ok (some m)) :
    m.rows = rows ∧ m.cols = cols ∧
    cooNonzeroCount m = (density * ((rows * cols : ℕ) : ℚ)).floor.toNat ∧
    cooValsProp m (fun v => ∃ q : ℚ, v = F64.num q ∧ 0 ≤ q ∧ q < 1) ∧
    (density = 0 → cooNonzeroCount m = 0) := by
  have hguard : ¬(density < 0 ∨ 1 ≤ density) := by
    rintro (h | h)
    · linarith
    · linarith
  unfold SparseRand at hok
  rw [if_neg hguard] at hok
  simp only [] at hok
  injection hok with hok
  have hzero : density = 0 → (density * ((rows * cols : ℕ) : ℚ)).floor.toNat = 0 := by
    intro hd
    subst hd
    have h00 : ((0 : ℚ) * ((rows * cols : ℕ) : ℚ)) = 0 := by ring
    rw [h00]
    decide
  rcases Nat.eq_zero_or_pos ((density * ((rows * cols : ℕ) : ℚ)).floor.toNat) with hc0 | hcpos
  · rw [hc0] at hok
    injection hok with hok
    subst hok
    refine ⟨rfl, rfl, ?_, cooValsProp_cooEmpty rows cols _, ?_⟩
    · rw [cooNonzeroCount_cooEmpty, hc0]
    · intro _
      exact cooNonzeroCount_cooEmpty rows cols
  · have hszpos : 0 < rows * cols := by
      by_contra hsz
      have h0 : rows * cols = 0 := by omega
      rw [h0] at hcpos
      have h00 : density * ((0 : ℕ) : ℚ) = 0 := by push_cast; ring
      rw [h00] at hcpos
      have hf : (Rat.floor (0 : ℚ)).toNat = 0 := by decide
      omega
    obtain ⟨hcnt, hQ', hr', hcl'⟩ := sparseRandFill_spec (rows * cols) idxs vals fuel
      (fun v => ∃ q : ℚ, v = F64.num q ∧ 0 < q ∧ q < 1) hvals
      (fun v hv hveq => by
        obtain ⟨q, hq, hq0, hq1⟩ := hv
        rw [hq] at hveq
        have hq00 : q = 0 := by injection hveq
        linarith)
      hszpos _ (cooEmpty rows cols) 0 0 m rfl (List.length_replicate ..)
      (cooValsProp_cooEmpty rows cols _) hok
    have hcnt' : cooNonzeroCount m = (density * ((rows * cols : ℕ) : ℚ)).floor.toNat := by
      rw [hcnt, cooNonzeroCount_cooEmpty]
      omega
    refine ⟨hr', hcl', hcnt', ?_, ?_⟩
    · intro row hrow p hp
      obtain ⟨q, hq, hq0, hq1⟩ := hQ' row hrow p hp
      exact ⟨q, hq, le_of_lt hq0, hq1⟩
    · intro hd
      rw [hcnt', hzero hd]

theorem claim_C3_witness :
    sparseCooF64Matrix.rows ⟨2, 2, [[(1, F64.num (1/2)), (0, F64.num (1/2))], []]⟩ = 2 ∧
    sparseCooF64Matrix.cols ⟨2, 2, [[(1, F64.num (1/2)), (0, F64.num (1/2))], []]⟩ = 2 ∧
    cooNonzeroCount ⟨2, 2, [[(1, F64.num (1/2)), (0, F64.num (1/2))], []]⟩ =
      ((1/2 : ℚ) * ((2 * 2 : ℕ) : ℚ)).floor.toNat ∧
    cooValsProp ⟨2, 2, [[(1, F64.num (1/2)), (0, F64.num (1/2))], []]⟩
      (fun v => ∃ q : ℚ, v = F64.num q ∧ 0 ≤ q ∧ q < 1) ∧
    ((1/2 : ℚ) = 0 → cooNonzeroCount ⟨2, 2, [[(1, F64.num (1/2)), (0, F64.num (1/2))], []]⟩ = 0) :=
  claim_C3_sparserand_counted 2 2 (1/2) (fun t => t) (fun _ => F64.num (1/2)) 4
    ⟨2, 2, [[(1, F64.num (1/2)), (0, F64.num (1/2))], []]⟩
    (by norm_num) (by norm_num)
    (fun _ => ⟨1/2, rfl, by norm_num, by norm_num⟩) (by
      unfold SparseRand
      rw [if_neg (by norm_num)]
      have hc : ((1/2 : ℚ) * ((2 * 2 : ℕ) : ℚ)) = 2 := by norm_num
      show Except.ok (sparseRandFill (2 * 2) (fun t => t) (fun _ => F64.num (1/2)) 4
        (cooEmpty 2 2) 0 0 (((1/2 : ℚ) * ((2 * 2 : ℕ) : ℚ)).floor.toNat)) = _
      rw [hc]
      rfl)

/-- C3 counterexample: with the valid density 1/2 on a 1×2 matrix the
target count is 1, and the value stream drawing exactly 0 — a value
inside `rand.Float64`'s documented range [0,1) — completes the run yet
leaves zero nonzero entries, refuting the claimed exact nonzero count. -/
theorem claim_C3_counterexample :
    SparseRand 1 2 (1/2) (fun _ => 0) (fun _ => F64.num 0) 1 =
      .ok (some ⟨1, 2, [[(0, F64.num 0)]]⟩) ∧
    (0 : ℚ) ≤ 1/2 ∧ (1/2 : ℚ) < 1 ∧
    (∀ n : ℕ, ∃ q : ℚ, (fun _ => F64.num 0 : ℕ → F64) n = F64.num q ∧ 0 ≤ q ∧ q < 1) ∧
    ((1/2 : ℚ) * ((1 * 2 : ℕ) : ℚ)).floor.toNat = 1 ∧
    cooNonzeroCount ⟨1, 2, [[(0, F64.num 0)]]⟩ = 0 :=
  ⟨by
      unfold SparseRand
      rw [if_neg (by norm_num)]
      have hc : ((1/2 : ℚ) * ((1 * 2 : ℕ) : ℚ)) = 1 := by norm_num
      show Except.ok (sparseRandFill (1 * 2) (fun _ => 0) (fun _ => F64.num 0) 1
        (cooEmpty 1 2) 0 0 (((1/2 : ℚ) * ((1 * 2 : ℕ) : ℚ)).floor.toNat)) = _
      rw [hc]
      rfl,
   by norm_num, by norm_num,
   fun _ => ⟨0, rfl, le_refl 0, by norm_num⟩,
   by
      have hc : ((1/2 : ℚ) * ((1 * 2 : ℕ) : ℚ)) = 1 := by norm_num
      rw [hc]
      decide,
   by decide⟩

end Mattools
